import Mathlib

/-!
PHENIX_2013_I1207323: the Δφ correlation analysis.

A shallow embedding of `src/PHENIX_2013_I1207323.cc` (the Rivet analysis class
`PHENIX_2013_I1207323`) and theorems about it.

Conventions of the embedding.

* C++ `double` values are elements of an arbitrary ordered field `α` with a floor
  function (`ℚ` for evaluation, `ℝ` for the mathematical reading); arithmetic is
  exact, rounding is not modelled.
* `M_PI` (from `<math.h>`) is not part of the repository; every definition that uses
  it takes it as the parameter `pi`.
* The class constants `N_CENT_TYPES` / `CENT_TYPE_EDGES` are the parameter `edges`
  (the table of `int` pairs); `N_CENT_TYPES` is its length. The configured table is
  `CENT_TYPE_EDGES`.
* `unsigned long long` counters are `Nat` reduced modulo `2 ^ 64`.
* A histogram is the list of its entries `(x, weight)` in fill order.
* The source never books the histograms `_h1dPhi[i]`. Statements about histograms are
  made for states in which the histogram of the bin is present; `bookedHistograms`
  isolates the booking that `init` of the source lacks.
-/

namespace PHENIX_2013_I1207323

/-! ## Data model -/

/-- A particle as seen by the cuts: PDG identity code, charge (Rivet derives it from the
identity code; `ChargedFinalState` keeps the particles whose charge is non-zero),
transverse momentum, pseudorapidity and azimuthal angle. -/
structure Particle (α : Type) where
  pid : Int
  charge : Int
  pt : α
  eta : α
  phi : α
deriving DecidableEq, Repr

/-- An event: the value returned by `centrality(event, "IPMethod")` and the final-state
particles. -/
structure Event (α : Type) where
  centrality : α
  particles : List (Particle α)

/-- The result of a `double` computation that is used as a weight: a finite value, or a
non-finite one (`±inf` or `NaN`). -/
inductive Weight (α : Type) where
  | finite (v : α)
  | nonFinite
deriving DecidableEq, Repr

/-- Multiplication of `double` weights: a product with a non-finite factor is
non-finite (`inf` or `NaN`). -/
def Weight.mul {α : Type} [Mul α] : Weight α → Weight α → Weight α
  | .finite a, .finite b => .finite (a * b)
  | _, _ => .nonFinite

/-- Addition of `double` weights. -/
def Weight.add {α : Type} [Add α] : Weight α → Weight α → Weight α
  | .finite a, .finite b => .finite (a + b)
  | _, _ => .nonFinite

/-- Modelled from the spec: the histogram type behind `_h1dPhi[i]` belongs to the
histogramming library, not to this repository. It is "an accumulator over a continuous
angular domain" that "supports unweighted fill-by-value and a terminal uniform rescale
operation"; here it is the list of its entries `(x, weight)` in fill order. -/
abbrev Hist (α : Type) := List (α × Weight α)

/-- Modelled from the spec: `h->fill(x, w)` deposits the value `x` with weight `w`. -/
def Hist.fill {α : Type} (h : Hist α) (x : α) (w : Weight α) : Hist α :=
  h ++ [(x, w)]

/-- Modelled from the spec: `h->scaleW(f)` rescales the histogram, every entry weight
is multiplied by `f`. -/
def Hist.scaleW {α : Type} [Mul α] (f : Weight α) (h : Hist α) : Hist α :=
  h.map (fun e => (e.1, e.2.mul f))

/-- Total weight of a histogram: the sum of the weights of its entries. -/
def Hist.sumW {α : Type} [Zero α] [Add α] (h : Hist α) : Weight α :=
  h.foldl (fun acc e => acc.add e.2) (.finite 0)

/-- The members of the analysis class: `_h1dPhi[N_CENT_TYPES]` and
`nTrigger[N_CENT_TYPES]`. -/
structure State (α : Type) where
  h1dPhi : List (Hist α)
  nTrigger : List Nat

/-- The configured `CENT_TYPE_EDGES` (`N_CENT_TYPES = 1`, the bin 0-40%). -/
def CENT_TYPE_EDGES : List (Int × Int) := [(0, 40)]

/-- The energy unit `GeV` of the analysis framework (its value is `1.0`). -/
def GeV {α : Type} [One α] : α := 1

section Code

variable {α : Type} [LinearOrderedField α]

/-! ## Cuts (`init`) -/

def pidPI0 : Int := 111

def pidGAMMA : Int := 22

/-- The identity / momentum alternative of `cutTrigger`:
`(pid == pidPI0 && pt > .12 * GeV && pt < .16 * GeV) ||
 (pid == pidGAMMA && pt > 5.0 * GeV && pt < 9.0 * GeV)`. -/
def cutTriggerId (p : Particle α) : Bool :=
  (p.pid == pidPI0 && decide (p.pt > 0.12 * GeV) && decide (p.pt < 0.16 * GeV)) ||
  (p.pid == pidGAMMA && decide (p.pt > 5.0 * GeV) && decide (p.pt < 9.0 * GeV))

/-- The cut `cutTrigger` of `init`, with the C++ precedence of the expression
`abseta < 3.9 or abseta > 3.1 && (...)`: `&&` binds tighter than `or`. -/
def cutTrigger (p : Particle α) : Bool :=
  decide (|p.eta| < 3.9) || (decide (|p.eta| > 3.1) && cutTriggerId p)

/-- The cut `cutAssoc` of `init`:
`abseta < 1.0 && pt > 1.2 * GeV && pt < 20.0 * GeV`. -/
def cutAssoc (p : Particle α) : Bool :=
  decide (|p.eta| < 1.0) && decide (p.pt > 1.2 * GeV) && decide (p.pt < 20.0 * GeV)

/-- `particlesByPt()`: sorted by decreasing transverse momentum. -/
def particlesByPt (ps : List (Particle α)) : List (Particle α) :=
  ps.insertionSort (fun a b => b.pt ≤ a.pt)

/-- `apply<FinalState>(event, "partTrigger").particlesByPt()`. -/
def tracksTrigger (e : Event α) : List (Particle α) :=
  particlesByPt (e.particles.filter cutTrigger)

/-- `apply<ChargedFinalState>(event, "partAssoc").particlesByPt()`: the charged
particles that pass `cutAssoc`. -/
def tracksAssoc (e : Event α) : List (Particle α) :=
  particlesByPt (e.particles.filter (fun p => p.charge != 0 && cutAssoc p))

/-! ## `init` -/

/-- Modelled from the spec: the booking of the histograms `_h1dPhi[i]`. The `init` of the
source books `_hist_c1` ... `_hist20_c1` only and never assigns `_h1dPhi[i]`, so in the
source the pointers are still null at the first `fill` or `scaleW`. By the spec the
histogram of a bin is "created at initialization"; it is created empty here. -/
def bookedHistograms (edges : List (Int × Int)) : List (Hist α) :=
  List.replicate edges.length []

/-- The state after `init`: the loop `nTrigger[i] = 0` over the bins is that of the
source; the histograms are those of `bookedHistograms`, which the source does not
book. -/
def init (edges : List (Int × Int)) : State α :=
  { h1dPhi := bookedHistograms edges,
    nTrigger := List.replicate edges.length 0 }

/-! ## `analyze` -/

/-- The test `c > CENT_TYPE_EDGES[i][0] && c <= CENT_TYPE_EDGES[i][1]`. -/
def inBin (c : α) (bin : Int × Int) : Bool :=
  decide (c > (bin.1 : α)) && decide (c ≤ (bin.2 : α))

/-- The search loop of `analyze` from index `i` on, over the remaining rows of the
table; `-1` when no row matches. -/
def findCentralityIndexFrom (c : α) : List (Int × Int) → Nat → Int
  | [], _ => -1
  | bin :: rest, i => if inBin c bin then (i : Int) else findCentralityIndexFrom c rest (i + 1)

/-- The value of `centralityIndex` after the search loop of `analyze`. -/
def findCentralityIndex (edges : List (Int × Int)) (c : α) : Int :=
  findCentralityIndexFrom c edges 0

/-- The loop `while (deltaPhi < 0) deltaPhi += step` run for at most `fuel` additions;
`none` when the additions are used up and the value is still negative. -/
def foldLoop (step : α) : Nat → α → Option α
  | 0, x => if x < 0 then none else some x
  | fuel + 1, x => if x < 0 then foldLoop step fuel (x + step) else some x

variable [FloorRing α]

/-- Number of additions after which `x` is no longer negative (for a positive step). -/
def foldFuel (step x : α) : Nat :=
  Int.toNat ⌈-x / step⌉

/-- The value of `deltaPhi` after `while (deltaPhi < 0) deltaPhi += M_PI/2;`. For
`0 < pi` the loop ends within `foldFuel` additions (`fold_spec`), and `fold` satisfies
the loop equation (`fold_unroll`). -/
def fold (pi x : α) : α :=
  (foldLoop (pi / 2) (foldFuel (pi / 2) x) x).getD x

/-- The body of the two nested `foreach` loops for one pair. -/
def pairStep (pi : α) (t : Particle α) (h : Hist α) (a : Particle α) : Hist α :=
  if a.pt < t.pt then h.fill (fold pi (a.phi - t.phi)) (.finite 1) else h

/-- The two nested `foreach` loops of `analyze` on the histogram of the bin of the
event. -/
def pairLoop (pi : α) (h : Hist α) (trig assoc : List (Particle α)) : Hist α :=
  trig.foldl (fun h t => assoc.foldl (pairStep pi t) h) h

/-- `nTrigger[i] += k` on an `unsigned long long`. -/
def addTrigger (k : Nat) (n : Nat) : Nat :=
  (n + k) % 2 ^ 64

/-- `analyze(event)`. -/
def analyze (pi : α) (edges : List (Int × Int)) (s : State α) (e : Event α) : State α :=
  let c := e.centrality
  if c < 0 ∨ c > 100 then s
  else
    let centralityIndex := findCentralityIndex edges c
    if centralityIndex = -1 then s
    else
      let i := centralityIndex.toNat
      let trig := tracksTrigger e
      let assoc := tracksAssoc e
      { nTrigger := s.nTrigger.modify (addTrigger trig.length) i,
        h1dPhi := s.h1dPhi.modify (fun h => pairLoop pi h trig assoc) i }

/-- The event loop: `analyze` on each event in turn. -/
def analyzeAll (pi : α) (edges : List (Int × Int)) (s : State α) (es : List (Event α)) :
    State α :=
  es.foldl (analyze pi edges) s

/-! ## `finalize` -/

/-- `1./(double)n`: division by zero gives a non-finite value. -/
def scaleFactor (n : Nat) : Weight α :=
  if n = 0 then .nonFinite else .finite (1 / (n : α))

/-- One iteration of the loop of `finalize`. -/
def finalizeBin (s : State α) (i : Nat) : State α :=
  { s with h1dPhi := s.h1dPhi.modify (Hist.scaleW (scaleFactor (s.nTrigger.getD i 0))) i }

/-- `finalize()`: the loop over `i < N_CENT_TYPES`. -/
def finalize (edges : List (Int × Int)) (s : State α) : State α :=
  (List.range edges.length).foldl finalizeBin s

end Code

/-! ## Notions used by the statements -/

section Derived

variable {α : Type} [LinearOrderedField α]

/-- The bin an event of centrality `c` is assigned to by the first part of `analyze`
(the range veto and the search loop); `none` when the event is vetoed. -/
def assignedBin (edges : List (Int × Int)) (c : α) : Option Nat :=
  if c < 0 ∨ c > 100 then none
  else if findCentralityIndex edges c = -1 then none
  else some (findCentralityIndex edges c).toNat

/-- Sum of the lengths of the trigger sequences of the events of `es` assigned to
bin `b`. -/
def triggerSum (edges : List (Int × Int)) (es : List (Event α)) (b : Nat) : Nat :=
  ((es.filter (fun e => assignedBin edges e.centrality == some b)).map
    (fun e => (tracksTrigger e).length)).sum

variable [FloorRing α]

/-- One unit-weight fill at the folded azimuthal difference for each pair `(t, a)` of
`trig ×ˢ assoc` with `a.pt < t.pt`. -/
def pairFills (pi : α) (trig assoc : List (Particle α)) : List (α × Weight α) :=
  ((trig ×ˢ assoc).filter (fun p => decide (p.2.pt < p.1.pt))).map
    (fun p => (fold pi (p.2.phi - p.1.phi), Weight.finite 1))

end Derived

/-! ## Sample inputs -/

/-- A photon at `pt = 6 GeV`, `phi = 0.5`, inside the window `3.1 < |eta| < 3.9`. -/
def samplePhoton : Particle ℚ := { pid := 22, charge := 0, pt := 6, eta := 3.5, phi := 0.5 }

/-- A charged pion at `pt = 2 GeV`, `phi = 1.0`, at mid-rapidity. -/
def samplePion : Particle ℚ := { pid := 211, charge := 1, pt := 2, eta := 0, phi := 1.0 }

/-- An event of centrality 20 holding `samplePhoton` and `samplePion`. -/
def sampleEvent : Event ℚ := { centrality := 20, particles := [samplePhoton, samplePion] }

/-- The `double` value of `M_PI` (the `double` nearest to π), as a rational. -/
def M_PI : ℚ := 884279719003555 / 281474976710656

/-- A photon at `pt = 6 GeV` at mid-rapidity (`eta = 0`). -/
def centralPhoton : Particle ℚ := { pid := 22, charge := 0, pt := 6, eta := 0, phi := 0.5 }

/-- A charged pion with `|eta| < 1.0` and `pt` exactly `1.2 GeV`. -/
def thresholdPion : Particle ℚ := { pid := 211, charge := 1, pt := 1.2, eta := 0, phi := 0 }

section DerivedFills

variable {α : Type} [LinearOrderedField α] [FloorRing α]

/-- The fills deposited into the histogram of bin `b` by the events of `es` assigned to
`b`, in event order: for each such event one unit-weight fill per pair `(t, a)` with
`a.pt < t.pt`. -/
def binFills (pi : α) (edges : List (Int × Int)) (es : List (Event α)) (b : Nat) :
    List (α × Weight α) :=
  (es.filter (fun e => assignedBin edges e.centrality == some b)).flatMap
    (fun e => pairFills pi (tracksTrigger e) (tracksAssoc e))

end DerivedFills

/-- A neutral pion with `pt` exactly `0.12 GeV` at `|eta| = 4`. -/
def boundaryPion : Particle ℚ := { pid := 111, charge := 0, pt := 0.12, eta := 4, phi := 0 }

/-- A photon at `pt = 6 GeV` at `|eta| = 5`, beyond the window `3.1 < |eta| < 3.9`. -/
def forwardPhoton : Particle ℚ := { pid := 22, charge := 0, pt := 6, eta := 5, phi := 0 }

/-- An event of centrality 20 holding `samplePhoton` only. -/
def photonEvent : Event ℚ := { centrality := 20, particles := [samplePhoton] }

/-- The members for the configured table when the histogram of bin 0 is present and
nothing has been counted or filled: an empty histogram and the counter 0. -/
def bookedState : State ℚ := { h1dPhi := [[]], nTrigger := [0] }

/-- The members for the configured table when the histogram of bin 0 holds one
unit-weight fill at `0.5` and the counter of bin 0 is 2: what the sample event gives
from `bookedState` (`analyze_bookedState_sample`). -/
def filledState : State ℚ := { h1dPhi := [[(1 / 2, Weight.finite 1)]], nTrigger := [2] }

/-- The members for the configured table when the histogram of bin 0 holds one
unit-weight fill at `0.5` and the counter of bin 0 is 0: what the event loop gives from
`bookedState` once the counter has wrapped (`wrappedState_reached`). -/
def wrappedState : State ℚ := { h1dPhi := [[(1 / 2, Weight.finite 1)]], nTrigger := [0] }

/-! ## Lemmas -/

section Lemmas

variable {α : Type} [LinearOrderedField α]

/-! ### The folding loop -/

theorem foldLoop_of_nonneg (step : α) (fuel : Nat) {x : α} (hx : 0 ≤ x) :
    foldLoop step fuel x = some x := by
  cases fuel <;> simp [foldLoop, not_lt.mpr hx]

theorem foldLoop_neg_succ (step : α) (fuel : Nat) {x : α} (hx : x < 0) :
    foldLoop step (fuel + 1) x = foldLoop step fuel (x + step) := by
  simp [foldLoop, hx]

/-- With enough additions available the loop stops, at a non-negative value. -/
theorem foldLoop_enough (step : α) :
    ∀ (fuel : Nat) (x : α), 0 ≤ x + fuel * step →
      ∃ y, foldLoop step fuel x = some y ∧ 0 ≤ y := by
  intro fuel
  induction fuel with
  | zero =>
    intro x hx
    have hx0 : 0 ≤ x := by simpa using hx
    exact ⟨x, foldLoop_of_nonneg step 0 hx0, hx0⟩
  | succ n ih =>
    intro x hx
    rcases lt_or_le x 0 with hneg | hpos
    · rw [foldLoop_neg_succ step n hneg]
      apply ih
      have : x + step + n * step = x + ((n + 1 : Nat) : α) * step := by push_cast; ring
      rw [this]; exact hx
    · exact ⟨x, foldLoop_of_nonneg step _ hpos, hpos⟩

/-- More additions available do not change a result already reached. -/
theorem foldLoop_mono (step : α) :
    ∀ (fuel extra : Nat) (x y : α), foldLoop step fuel x = some y →
      foldLoop step (fuel + extra) x = some y := by
  intro fuel
  induction fuel with
  | zero =>
    intro extra x y h
    by_cases hx : x < 0
    · simp [foldLoop, hx] at h
    · simp [foldLoop, hx] at h
      subst h
      simpa using foldLoop_of_nonneg step extra (not_lt.mp hx)
  | succ n ih =>
    intro extra x y h
    by_cases hx : x < 0
    · rw [foldLoop_neg_succ step n hx] at h
      have e : n + 1 + extra = (n + extra) + 1 := by omega
      rw [e, foldLoop_neg_succ step _ hx]
      exact ih extra _ _ h
    · rw [foldLoop_of_nonneg step _ (not_lt.mp hx)] at h
      rw [foldLoop_of_nonneg step _ (not_lt.mp hx)]
      exact h

/-- The result of the loop does not depend on how many additions were available. -/
theorem foldLoop_det (step : α) {m n : Nat} {x y z : α}
    (hy : foldLoop step m x = some y) (hz : foldLoop step n x = some z) : y = z := by
  have h1 := foldLoop_mono step m n x y hy
  have h2 := foldLoop_mono step n m x z hz
  rw [Nat.add_comm] at h2
  rw [h1] at h2
  exact Option.some.inj h2

theorem foldFuel_enough [FloorRing α] {step : α} (hstep : 0 < step) (x : α) :
    0 ≤ x + (foldFuel step x : Nat) * step := by
  have h1 : -x / step ≤ (⌈-x / step⌉ : α) := Int.le_ceil _
  have h2 : ((⌈-x / step⌉ : Int) : α) ≤ ((Int.toNat ⌈-x / step⌉ : Nat) : α) := by
    have := Int.self_le_toNat ⌈-x / step⌉
    exact_mod_cast this
  have h3 : -x / step ≤ ((foldFuel step x : Nat) : α) := le_trans h1 h2
  have h4 : -x ≤ (foldFuel step x : Nat) * step := (div_le_iff₀ hstep).mp h3
  linarith

theorem fold_spec [FloorRing α] {pi : α} (hpi : 0 < pi) (x : α) :
    foldLoop (pi / 2) (foldFuel (pi / 2) x) x = some (fold pi x) ∧ 0 ≤ fold pi x := by
  have hstep : 0 < pi / 2 := by positivity
  obtain ⟨y, hy, hy0⟩ := foldLoop_enough _ _ x (foldFuel_enough hstep x)
  simp [fold, hy, hy0]

theorem fold_of_nonneg [FloorRing α] (pi : α) {x : α} (hx : 0 ≤ x) : fold pi x = x := by
  simp [fold, foldLoop_of_nonneg _ _ hx]

/-- The loop equation of `while (deltaPhi < 0) deltaPhi += M_PI/2`. -/
theorem fold_unroll [FloorRing α] {pi : α} (hpi : 0 < pi) (x : α) :
    fold pi x = if x < 0 then fold pi (x + pi / 2) else x := by
  by_cases hx : x < 0
  · rw [if_pos hx]
    have h1 := (fold_spec hpi x).1
    have h2 := (fold_spec hpi (x + pi / 2)).1
    have h3 : foldLoop (pi / 2) (foldFuel (pi / 2) (x + pi / 2) + 1) x
        = some (fold pi (x + pi / 2)) := by
      rw [foldLoop_neg_succ _ _ hx]; exact h2
    exact foldLoop_det _ h1 h3
  · rw [if_neg hx]; exact fold_of_nonneg pi (not_lt.mp hx)

/-! ### The bin search -/

theorem inBin_iff (c : α) (bin : Int × Int) :
    inBin c bin = true ↔ (bin.1 : α) < c ∧ c ≤ (bin.2 : α) := by
  simp [inBin]

theorem findFrom_eq_neg_one (c : α) :
    ∀ (l : List (Int × Int)) (i : Nat),
      findCentralityIndexFrom c l i = -1 ↔ ∀ bin ∈ l, inBin c bin = false := by
  intro l
  induction l with
  | nil => intro i; simp [findCentralityIndexFrom]
  | cons b rest ih =>
    intro i
    cases hb : inBin c b
    · simp only [findCentralityIndexFrom, hb, Bool.false_eq_true, if_false, List.mem_cons,
        forall_eq_or_imp, true_and]
      exact ih (i + 1)
    · simp only [findCentralityIndexFrom, hb, if_true, List.mem_cons, forall_eq_or_imp]
      constructor
      · intro h; omega
      · intro h; simp at h

theorem findFrom_lower (c : α) :
    ∀ (l : List (Int × Int)) (i : Nat),
      findCentralityIndexFrom c l i = -1 ∨ (i : Int) ≤ findCentralityIndexFrom c l i := by
  intro l
  induction l with
  | nil => intro i; simp [findCentralityIndexFrom]
  | cons b2 r2 ih2 =>
    intro i
    simp only [findCentralityIndexFrom]
    split
    · right; exact le_refl _
    · rcases ih2 (i + 1) with h | h
      · left; exact h
      · right; omega

theorem findFrom_eq_index (c : α) :
    ∀ (l : List (Int × Int)) (i k : Nat),
      findCentralityIndexFrom c l i = ((i + k : Nat) : Int) ↔
        ∃ bin, l[k]? = some bin ∧ inBin c bin = true ∧
          ∀ j, j < k → ∀ bin2, l[j]? = some bin2 → inBin c bin2 = false := by
  intro l
  induction l with
  | nil => intro i k; simp [findCentralityIndexFrom]; omega
  | cons b rest ih =>
    intro i k
    cases hb : inBin c b
    · simp only [findCentralityIndexFrom, hb, Bool.false_eq_true, if_false]
      cases k with
      | zero =>
        constructor
        · intro h
          rcases findFrom_lower c rest (i + 1) with h2 | h2 <;> omega
        · rintro ⟨bin, h1, h2, -⟩
          simp at h1; subst h1; rw [hb] at h2; cases h2
      | succ k =>
        have e : i + (k + 1) = (i + 1) + k := by omega
        rw [e, ih (i + 1) k]
        constructor
        · rintro ⟨bin, h1, h2, h3⟩
          refine ⟨bin, by simpa using h1, h2, ?_⟩
          intro j hj bin2 hj2
          cases j with
          | zero => simp at hj2; subst hj2; exact hb
          | succ j => exact h3 j (by omega) bin2 (by simpa using hj2)
        · rintro ⟨bin, h1, h2, h3⟩
          refine ⟨bin, by simpa using h1, h2, ?_⟩
          intro j hj bin2 hj2
          exact h3 (j + 1) (by omega) bin2 (by simpa using hj2)
    · simp only [findCentralityIndexFrom, hb, if_true]
      cases k with
      | zero => simp [hb]
      | succ k =>
        constructor
        · intro h; omega
        · rintro ⟨bin, -, -, h⟩
          have := h 0 (Nat.succ_pos k) b (by simp)
          rw [hb] at this; cases this

theorem findFrom_range (c : α) :
    ∀ (l : List (Int × Int)) (i : Nat),
      findCentralityIndexFrom c l i = -1 ∨
        ∃ k : Nat, k < l.length ∧ findCentralityIndexFrom c l i = ((i + k : Nat) : Int) := by
  intro l
  induction l with
  | nil => intro i; simp [findCentralityIndexFrom]
  | cons b rest ih =>
    intro i
    simp only [findCentralityIndexFrom]
    split
    · right; exact ⟨0, by simp, by simp⟩
    · rcases ih (i + 1) with h | ⟨k, hk, h⟩
      · left; exact h
      · right; exact ⟨k + 1, by simp [hk], by rw [h]; congr 1; omega⟩

/-! ### `analyze` -/

theorem analyze_eq [FloorRing α] (pi : α) (edges : List (Int × Int)) (s : State α) (e : Event α) :
    analyze pi edges s e =
      match assignedBin edges e.centrality with
      | none => s
      | some i =>
        { nTrigger := s.nTrigger.modify (addTrigger (tracksTrigger e).length) i,
          h1dPhi := s.h1dPhi.modify
            (fun h => pairLoop pi h (tracksTrigger e) (tracksAssoc e)) i } := by
  unfold analyze assignedBin
  by_cases h1 : e.centrality < 0 ∨ e.centrality > 100
  · simp only [h1, if_true]
  · by_cases h2 : findCentralityIndex edges e.centrality = -1
    · simp only [h1, h2, if_true, if_false]
    · simp only [h1, h2, if_false]

theorem assignedBin_eq_none (edges : List (Int × Int)) (c : α)
    (h : c < 0 ∨ c > 100 ∨ ∀ bin ∈ edges, ¬ ((bin.1 : α) < c ∧ c ≤ (bin.2 : α))) :
    assignedBin edges c = none := by
  unfold assignedBin
  by_cases h1 : c < 0 ∨ c > 100
  · simp only [h1, if_true]
  · have h3 : ∀ bin ∈ edges, ¬ ((bin.1 : α) < c ∧ c ≤ (bin.2 : α)) := by
      rcases h with h | h | h
      · exact absurd (Or.inl h) h1
      · exact absurd (Or.inr h) h1
      · exact h
    have h4 : findCentralityIndex edges c = -1 := by
      unfold findCentralityIndex
      rw [findFrom_eq_neg_one]
      intro bin hbin
      have := h3 bin hbin
      rw [← inBin_iff] at this
      simpa using this
    simp only [h1, h4, if_true, if_false]

theorem assignedBin_lt (edges : List (Int × Int)) (c : α) (b : Nat)
    (h : assignedBin edges c = some b) : b < edges.length := by
  unfold assignedBin at h
  split at h
  · cases h
  · split at h
    · cases h
    · rename_i h2
      rcases findFrom_range c edges 0 with h3 | ⟨k, hk, h3⟩
      · exact absurd h3 h2
      · unfold findCentralityIndex at h
        rw [h3] at h
        simp at h
        omega

theorem inner_loop_eq [FloorRing α] (pi : α) (t : Particle α) :
    ∀ (assoc : List (Particle α)) (h : Hist α),
      assoc.foldl (pairStep pi t) h =
        h ++ ((assoc.map (Prod.mk t)).filter (fun p => decide (p.2.pt < p.1.pt))).map
          (fun p => (fold pi (p.2.phi - p.1.phi), Weight.finite 1)) := by
  intro assoc
  induction assoc with
  | nil => intro h; simp
  | cons a rest ih =>
    intro h
    rw [List.foldl_cons, ih]
    by_cases hlt : a.pt < t.pt
    · simp [pairStep, Hist.fill, hlt, List.filter_cons]
    · simp [pairStep, hlt, List.filter_cons]

theorem pairLoop_eq [FloorRing α] (pi : α) (assoc : List (Particle α)) :
    ∀ (trig : List (Particle α)) (h : Hist α),
      pairLoop pi h trig assoc = h ++ pairFills pi trig assoc := by
  intro trig
  induction trig with
  | nil => intro h; simp [pairLoop, pairFills]
  | cons t rest ih =>
    intro h
    have ih2 := ih (assoc.foldl (pairStep pi t) h)
    unfold pairLoop at ih2 ⊢
    rw [List.foldl_cons, ih2, inner_loop_eq]
    simp [pairFills, List.product_cons, List.filter_append, List.append_assoc]

theorem analyze_nTrigger_get [FloorRing α] (pi : α) (edges : List (Int × Int)) (s : State α)
    (e : Event α) (b : Nat) :
    (analyze pi edges s e).nTrigger[b]? =
      if assignedBin edges e.centrality = some b then
        (s.nTrigger[b]?).map (addTrigger (tracksTrigger e).length)
      else s.nTrigger[b]? := by
  rw [analyze_eq]
  cases hbin : assignedBin edges e.centrality with
  | none => simp
  | some i =>
    by_cases hib : i = b
    · subst hib; simp
    · simp [hib, List.getElem?_modify]

theorem analyzeAll_nTrigger [FloorRing α] (pi : α) (edges : List (Int × Int)) (b : Nat) :
    ∀ (es : List (Event α)) (s : State α) (n : Nat), s.nTrigger[b]? = some n → n < 2 ^ 64 →
      (analyzeAll pi edges s es).nTrigger[b]? =
        some ((n + triggerSum edges es b) % 2 ^ 64) := by
  intro es
  induction es with
  | nil =>
    intro s n hn hlt
    simp only [analyzeAll, triggerSum, List.foldl_nil, List.filter_nil, List.map_nil,
      List.sum_nil, Nat.add_zero, hn, Nat.mod_eq_of_lt hlt]
  | cons e rest ih =>
    intro s n hn hlt
    have hstep := analyze_nTrigger_get pi edges s e b
    unfold analyzeAll at ih ⊢
    rw [List.foldl_cons]
    by_cases hbin : assignedBin edges e.centrality = some b
    · rw [if_pos hbin, hn] at hstep
      rw [ih _ _ hstep (Nat.mod_lt _ (by norm_num))]
      simp only [triggerSum, List.filter_cons, hbin, beq_self_eq_true, if_true, List.map_cons,
        List.sum_cons, addTrigger]
      rw [Nat.mod_add_mod, Nat.add_assoc]
    · rw [if_neg hbin, hn] at hstep
      rw [ih _ _ hstep hlt]
      have hne : (assignedBin edges e.centrality == some b) = false := by
        simpa using hbin
      simp only [triggerSum, List.filter_cons, hne, Bool.false_eq_true, if_false]

/-! ### `finalize` -/

theorem finalizeBin_nTrigger (s : State α) (i : Nat) : (finalizeBin s i).nTrigger = s.nTrigger :=
  rfl

theorem finalizeBin_h1dPhi (s : State α) (i : Nat) :
    (finalizeBin s i).h1dPhi =
      s.h1dPhi.modify (Hist.scaleW (scaleFactor (s.nTrigger.getD i 0))) i :=
  rfl

theorem finalize_loop (s : State α) :
    ∀ n : Nat,
      ((List.range n).foldl finalizeBin s).nTrigger = s.nTrigger ∧
      ∀ i : Nat, ((List.range n).foldl finalizeBin s).h1dPhi[i]? =
        if i < n then (s.h1dPhi[i]?).map (Hist.scaleW (scaleFactor (s.nTrigger.getD i 0)))
        else s.h1dPhi[i]? := by
  intro n
  induction n with
  | zero => simp
  | succ n ih =>
    obtain ⟨ih1, ih2⟩ := ih
    rw [List.range_succ, List.foldl_append, List.foldl_cons, List.foldl_nil]
    refine ⟨by rw [finalizeBin_nTrigger, ih1], ?_⟩
    intro i
    rw [finalizeBin_h1dPhi, List.getElem?_modify, ih1, ih2 i]
    by_cases h1 : i < n
    · have h2 : n ≠ i := by omega
      have h3 : i < n + 1 := by omega
      rw [if_pos h1, if_pos h3]
      cases s.h1dPhi[i]? <;> simp [h2]
    · by_cases h2 : n = i
      · subst h2
        rw [if_neg h1, if_pos (Nat.lt_succ_self n)]
        cases s.h1dPhi[n]? <;> simp
      · have h3 : ¬ i < n + 1 := by omega
        rw [if_neg h1, if_neg h3]
        cases s.h1dPhi[i]? <;> simp [h2]

theorem finalize_h1dPhi_get (edges : List (Int × Int)) (s : State α) (i : Nat)
    (hi : i < edges.length) :
    (finalize edges s).h1dPhi[i]? =
      (s.h1dPhi[i]?).map (Hist.scaleW (scaleFactor (s.nTrigger.getD i 0))) := by
  unfold finalize
  rw [(finalize_loop s edges.length).2 i, if_pos hi]

theorem getD_of_get {β : Type} (l : List β) (i : Nat) (d v : β) (h : l[i]? = some v) :
    l.getD i d = v := by
  simp [List.getD, h]

theorem sumW_foldl_const (c : α) :
    ∀ (h : Hist α) (a : α), (∀ e ∈ h, e.2 = Weight.finite c) →
      h.foldl (fun acc e => acc.add e.2) (Weight.finite a) =
        Weight.finite (a + (h.length : α) * c) := by
  intro h
  induction h with
  | nil => intro a _; simp
  | cons e rest ih =>
    intro a hall
    have he : e.2 = Weight.finite c := hall e (List.mem_cons_self _ _)
    have hstep : (Weight.finite a).add e.2 = Weight.finite (a + c) := by
      rw [he]; rfl
    rw [List.foldl_cons, hstep, ih (a + c) (fun x hx => hall x (List.mem_cons_of_mem _ hx))]
    rw [List.length_cons]
    congr 1
    push_cast
    ring

end Lemmas

/-! ### The sample event -/

theorem assignedBin_sample : assignedBin CENT_TYPE_EDGES (20 : ℚ) = some 0 := by
  norm_num [assignedBin, findCentralityIndex, findCentralityIndexFrom, CENT_TYPE_EDGES, inBin]

theorem tracksTrigger_sample : tracksTrigger sampleEvent = [samplePhoton, samplePion] := by
  have h1 : cutTrigger samplePhoton = true := by norm_num [cutTrigger, samplePhoton, abs_lt]
  have h2 : cutTrigger samplePion = true := by norm_num [cutTrigger, samplePion]
  have h3 : samplePion.pt ≤ samplePhoton.pt := by norm_num [samplePion, samplePhoton]
  simp [tracksTrigger, particlesByPt, sampleEvent, h1, h2, h3]

theorem tracksAssoc_sample : tracksAssoc sampleEvent = [samplePion] := by
  have h1 : (samplePhoton.charge != 0) = false := by simp [samplePhoton]
  have h2 : (samplePion.charge != 0) = true := by simp [samplePion]
  have h3 : cutAssoc samplePion = true := by norm_num [cutAssoc, samplePion, GeV]
  simp [tracksAssoc, particlesByPt, sampleEvent, h1, h2, h3]

theorem triggerSum_sample : triggerSum CENT_TYPE_EDGES [sampleEvent, sampleEvent] 0 = 4 := by
  have hc : sampleEvent.centrality = 20 := rfl
  simp [triggerSum, hc, assignedBin_sample, tracksTrigger_sample]

/-- The sample event from the initial state: both particles pass `cutTrigger`, the pion is
the only associate, and the one pair with `a.pt < t.pt` gives one fill at `0.5`. -/
theorem analyze_sampleEvent :
    analyze M_PI CENT_TYPE_EDGES (init CENT_TYPE_EDGES) sampleEvent =
      { h1dPhi := [[(1 / 2, Weight.finite 1)]], nTrigger := [2] } := by
  rw [analyze_eq]
  have hc : sampleEvent.centrality = 20 := rfl
  rw [hc, assignedBin_sample]
  simp only [tracksTrigger_sample, tracksAssoc_sample, pairLoop_eq]
  have hf : fold M_PI (samplePion.phi - samplePhoton.phi) = 1 / 2 := by
    have : samplePion.phi - samplePhoton.phi = 1 / 2 := by norm_num [samplePion, samplePhoton]
    rw [this]; exact fold_of_nonneg _ (by norm_num)
  have h1 : samplePion.pt < samplePhoton.pt := by norm_num [samplePion, samplePhoton]
  simp [init, bookedHistograms, CENT_TYPE_EDGES, addTrigger, pairFills, List.product, h1, hf]

/-! ## Claims -/

/-- C1: an event whose centrality is below 0, above 100, or inside no configured bin range
leaves the state unchanged, whatever particles it contains: no histogram receives a fill
and no trigger counter is incremented. -/
theorem analyze_veto {α : Type} [LinearOrderedField α] [FloorRing α] (pi : α)
    (edges : List (Int × Int)) (s : State α) (e : Event α)
    (h : e.centrality < 0 ∨ e.centrality > 100 ∨
      ∀ bin ∈ edges, ¬ ((bin.1 : α) < e.centrality ∧ e.centrality ≤ (bin.2 : α))) :
    analyze pi edges s e = s := by
  rw [analyze_eq, assignedBin_eq_none edges e.centrality h]

/-- Witness for `analyze_veto`: an event of the warm-up period (centrality `-1`) holding
two particles leaves the initial state as it is. -/
theorem analyze_veto_witness :
    ((-1 : ℚ) < 0) ∧
      analyze M_PI CENT_TYPE_EDGES (init CENT_TYPE_EDGES)
        { centrality := -1, particles := [samplePhoton, samplePion] } =
        init CENT_TYPE_EDGES :=
  ⟨by norm_num,
   analyze_veto M_PI CENT_TYPE_EDGES (init CENT_TYPE_EDGES)
     { centrality := -1, particles := [samplePhoton, samplePion] }
     (Or.inl (by norm_num))⟩

/-- C2: starting from the state produced by `init`, after `analyze` has processed the
events `es`, the trigger counter of every bin `b` is the sum of the lengths of the trigger
sequences of the events assigned to `b` (when that sum is below `2 ^ 64`); and the
counters after one event are the same for two events of equal centrality whose trigger
sequences have equal length, whatever their associate sequences are. -/
theorem nTrigger_eq_triggerSum {α : Type} [LinearOrderedField α] [FloorRing α] (pi : α)
    (edges : List (Int × Int)) (es : List (Event α)) (b : Nat) (hb : b < edges.length)
    (hsum : triggerSum edges es b < 2 ^ 64) :
    (analyzeAll pi edges (init edges) es).nTrigger[b]? = some (triggerSum edges es b) ∧
    (∀ (s : State α) (e1 e2 : Event α), e1.centrality = e2.centrality →
      (tracksTrigger e1).length = (tracksTrigger e2).length →
      (analyze pi edges s e1).nTrigger = (analyze pi edges s e2).nTrigger) := by
  constructor
  · have h0 : (init edges : State α).nTrigger[b]? = some 0 := by
      simp [init, List.getElem?_replicate, hb]
    rw [analyzeAll_nTrigger pi edges b es _ 0 h0 (by norm_num), Nat.zero_add,
      Nat.mod_eq_of_lt hsum]
  · intro s e1 e2 hc ht
    rw [analyze_eq, analyze_eq, hc, ht]
    cases assignedBin edges e2.centrality <;> rfl

/-- Witness for `nTrigger_eq_triggerSum`: two copies of the sample event (two particles
pass `cutTrigger` in each) bring the counter of bin 0 to 4. -/
theorem nTrigger_eq_triggerSum_witness :
    0 < CENT_TYPE_EDGES.length ∧
    triggerSum CENT_TYPE_EDGES [sampleEvent, sampleEvent] 0 = 4 ∧
    (analyzeAll M_PI CENT_TYPE_EDGES (init CENT_TYPE_EDGES)
      [sampleEvent, sampleEvent]).nTrigger[0]? = some 4 :=
  ⟨by decide, triggerSum_sample,
   triggerSum_sample ▸
    (nTrigger_eq_triggerSum M_PI CENT_TYPE_EDGES [sampleEvent, sampleEvent] 0 (by decide)
      (by rw [triggerSum_sample]; norm_num)).1⟩

/-- C3: for an event assigned to bin `b`, the entries that `analyze` adds to the histogram
of `b` are, as a multiset, one unit-weight fill at `fold (a.phi - t.phi)` for each pair
`(t, a)` of the trigger and associate sequences with `a.pt < t.pt`, and nothing else; in
particular nothing is added when no pair has `a.pt < t.pt`, or when one of the two
sequences is empty. -/
theorem analyze_fills {α : Type} [LinearOrderedField α] [FloorRing α] (pi : α)
    (edges : List (Int × Int)) (s : State α) (e : Event α) (b : Nat) (h : Hist α)
    (hb : assignedBin edges e.centrality = some b) (hh : s.h1dPhi[b]? = some h) :
    ∃ h2 : Hist α, (analyze pi edges s e).h1dPhi[b]? = some h2 ∧
      (h2 : Multiset (α × Weight α)) =
        (h : Multiset (α × Weight α)) +
          Multiset.map (fun p => (fold pi (p.2.phi - p.1.phi), Weight.finite 1))
            (Multiset.filter (fun p => p.2.pt < p.1.pt)
              ((tracksTrigger e ×ˢ tracksAssoc e : List (Particle α × Particle α)) :
                Multiset (Particle α × Particle α))) ∧
      ((∀ t ∈ tracksTrigger e, ∀ a ∈ tracksAssoc e, t.pt ≤ a.pt) → h2 = h) ∧
      (tracksTrigger e = [] ∨ tracksAssoc e = [] → h2 = h) := by
  refine ⟨h ++ pairFills pi (tracksTrigger e) (tracksAssoc e), ?_, ?_, ?_, ?_⟩
  · rw [analyze_eq, hb]
    simp [hh, pairLoop_eq]
  · simp [pairFills, ← Multiset.coe_add]
  · intro hall
    have : pairFills pi (tracksTrigger e) (tracksAssoc e) = [] := by
      unfold pairFills
      rw [List.map_eq_nil_iff, List.filter_eq_nil_iff]
      rintro ⟨t, a⟩ hmem
      have hmem2 := List.pair_mem_product.mp hmem
      simpa using hall t hmem2.1 a hmem2.2
    rw [this, List.append_nil]
  · intro hemp
    have : pairFills pi (tracksTrigger e) (tracksAssoc e) = [] := by
      unfold pairFills
      rcases hemp with h0 | h0 <;> simp [h0]
    rw [this, List.append_nil]

/-- Witness for `analyze_fills`: the sample event (centrality 20, a photon at `pt = 6`,
`phi = 0.5` and a charged pion at `pt = 2`, `phi = 1.0`) from the initial state. -/
theorem analyze_fills_witness :
    assignedBin CENT_TYPE_EDGES sampleEvent.centrality = some 0 ∧
    (init CENT_TYPE_EDGES : State ℚ).h1dPhi[0]? = some [] ∧
    ∃ h2 : Hist ℚ,
      (analyze M_PI CENT_TYPE_EDGES (init CENT_TYPE_EDGES) sampleEvent).h1dPhi[0]? = some h2 ∧
      (h2 : Multiset (ℚ × Weight ℚ)) =
        (([] : Hist ℚ) : Multiset (ℚ × Weight ℚ)) +
          Multiset.map (fun p => (fold M_PI (p.2.phi - p.1.phi), Weight.finite 1))
            (Multiset.filter (fun p => p.2.pt < p.1.pt)
              ((tracksTrigger sampleEvent ×ˢ tracksAssoc sampleEvent :
                List (Particle ℚ × Particle ℚ)) : Multiset (Particle ℚ × Particle ℚ))) ∧
      ((∀ t ∈ tracksTrigger sampleEvent, ∀ a ∈ tracksAssoc sampleEvent, t.pt ≤ a.pt) →
        h2 = []) ∧
      (tracksTrigger sampleEvent = [] ∨ tracksAssoc sampleEvent = [] → h2 = []) :=
  ⟨assignedBin_sample, rfl,
   analyze_fills M_PI CENT_TYPE_EDGES (init CENT_TYPE_EDGES) sampleEvent 0 []
     assignedBin_sample rfl⟩

/-- C4: the bin search returns the smallest index `i` with `low_i < c <= high_i`, returns
`-1` exactly when no row of the table matches, and returns nothing else; on the
configured table `[(0, 40]]` it returns bin 0 exactly when `0 < c <= 40`, so `c = 40` is
accepted and `c = 0` is rejected. -/
theorem findCentralityIndex_spec {α : Type} [LinearOrderedField α]
    (edges : List (Int × Int)) (c : α) :
    (∀ i : Nat, findCentralityIndex edges c = (i : Int) ↔
      ∃ bin, edges[i]? = some bin ∧ ((bin.1 : α) < c ∧ c ≤ (bin.2 : α)) ∧
        ∀ j, j < i → ∀ bin2, edges[j]? = some bin2 →
          ¬ ((bin2.1 : α) < c ∧ c ≤ (bin2.2 : α))) ∧
    (findCentralityIndex edges c = -1 ↔
      ∀ bin ∈ edges, ¬ ((bin.1 : α) < c ∧ c ≤ (bin.2 : α))) ∧
    (findCentralityIndex edges c = -1 ∨
      ∃ i : Nat, i < edges.length ∧ findCentralityIndex edges c = (i : Int)) ∧
    (findCentralityIndex CENT_TYPE_EDGES c = 0 ↔ 0 < c ∧ c ≤ 40) ∧
    findCentralityIndex CENT_TYPE_EDGES (40 : α) = 0 ∧
    findCentralityIndex CENT_TYPE_EDGES (0 : α) = -1 := by
  refine ⟨?_, ?_, ?_, ?_, ?_, ?_⟩
  · intro i
    have h := findFrom_eq_index c edges 0 i
    simp only [Nat.zero_add] at h
    unfold findCentralityIndex
    rw [h]
    simp only [inBin_iff, ← Bool.not_eq_true]
  · unfold findCentralityIndex
    rw [findFrom_eq_neg_one]
    simp only [inBin_iff, ← Bool.not_eq_true]
  · rcases findFrom_range c edges 0 with h | ⟨k, hk, h⟩
    · left; exact h
    · right; exact ⟨k, hk, by simpa using h⟩
  · by_cases h : (0 : α) < c ∧ c ≤ 40
    · simp [findCentralityIndex, findCentralityIndexFrom, CENT_TYPE_EDGES, inBin, h]
    · simp only [findCentralityIndex, findCentralityIndexFrom, CENT_TYPE_EDGES, inBin]
      simp at h ⊢
  · simp [findCentralityIndex, findCentralityIndexFrom, CENT_TYPE_EDGES, inBin]
  · simp [findCentralityIndex, findCentralityIndexFrom, CENT_TYPE_EDGES, inBin]

/-- C5 (evaluation of the code): a charged pion of `pt = 2 GeV` at `eta = 0` passes
`cutTrigger` although it fails the identity / momentum alternative, and `analyze` counts
it in `nTrigger`. -/
theorem cutTrigger_accepts_other_identity :
    cutTrigger samplePion = true ∧ cutTriggerId samplePion = false ∧
      samplePion.pid ≠ pidPI0 ∧ samplePion.pid ≠ pidGAMMA ∧
      (analyze M_PI CENT_TYPE_EDGES (init CENT_TYPE_EDGES)
        { centrality := 20, particles := [samplePion] }).nTrigger = [1] := by
  refine ⟨?_, ?_, ?_, ?_, ?_⟩
  · norm_num [cutTrigger, samplePion]
  · simp [cutTriggerId, samplePion, pidPI0, pidGAMMA]
  · simp [samplePion, pidPI0]
  · simp [samplePion, pidGAMMA]
  · have hc : cutTrigger samplePion = true := by norm_num [cutTrigger, samplePion]
    rw [analyze_eq]
    have hb : assignedBin CENT_TYPE_EDGES (20 : ℚ) = some 0 := by
      norm_num [assignedBin, findCentralityIndex, findCentralityIndexFrom, CENT_TYPE_EDGES,
        inBin]
    dsimp only
    rw [hb]
    simp [tracksTrigger, particlesByPt, hc, init, CENT_TYPE_EDGES, addTrigger]

/-- C6 (evaluation of the code): a photon of `pt = 6 GeV` at `eta = 0` passes `cutTrigger`
although its pseudorapidity magnitude is not above 3.1. -/
theorem cutTrigger_accepts_central_eta :
    cutTrigger centralPhoton = true ∧ ¬ (3.1 < |centralPhoton.eta|) ∧
      tracksTrigger { centrality := 20, particles := [centralPhoton] } = [centralPhoton] := by
  have hc : cutTrigger centralPhoton = true := by norm_num [cutTrigger, centralPhoton]
  refine ⟨hc, ?_, ?_⟩
  · norm_num [centralPhoton]
  · simp [tracksTrigger, particlesByPt, hc]

/-- C7 (counterexample): a charged particle with `|eta| < 1.0` and `pt` exactly `1.2 GeV`
is rejected by `cutAssoc` and is not in the associate sequence. -/
theorem cutAssoc_rejects_threshold :
    thresholdPion.charge ≠ 0 ∧ |thresholdPion.eta| < 1.0 ∧
      ((1.2 : ℚ) ≤ thresholdPion.pt ∧ thresholdPion.pt ≤ 20.0) ∧
      cutAssoc thresholdPion = false ∧
      tracksAssoc { centrality := 20, particles := [thresholdPion] } = [] := by
  have hc : cutAssoc thresholdPion = false := by norm_num [cutAssoc, thresholdPion, GeV]
  refine ⟨by simp [thresholdPion], by norm_num [thresholdPion],
    by norm_num [thresholdPion], hc, ?_⟩
  simp [tracksAssoc, particlesByPt, hc]

/-- C7 (amended): `cutAssoc` accepts a particle exactly when `|eta| < 1.0` and
`1.2 < pt < 20.0` (both momentum bounds strict), so the associate sequence holds exactly
the charged particles of the event in that open momentum range; a particle with `pt`
equal to `1.2` or to `20.0` is rejected. -/
theorem cutAssoc_iff {α : Type} [LinearOrderedField α] (p : Particle α) :
    (cutAssoc p = true ↔ |p.eta| < 1.0 ∧ 1.2 < p.pt ∧ p.pt < 20.0) ∧
    (∀ e : Event α, p ∈ tracksAssoc e ↔
      p ∈ e.particles ∧ p.charge ≠ 0 ∧ |p.eta| < 1.0 ∧ 1.2 < p.pt ∧ p.pt < 20.0) ∧
    (p.pt = 1.2 ∨ p.pt = 20.0 → cutAssoc p = false) := by
  have h1 : cutAssoc p = true ↔ |p.eta| < 1.0 ∧ 1.2 < p.pt ∧ p.pt < 20.0 := by
    simp [cutAssoc, GeV, and_assoc]
  refine ⟨h1, ?_, ?_⟩
  · intro e
    unfold tracksAssoc particlesByPt
    rw [(List.perm_insertionSort _ _).mem_iff]
    simp only [List.mem_filter, Bool.and_eq_true, h1, bne_iff_ne]
  · intro h
    rw [← Bool.not_eq_true, h1]
    rcases h with h | h <;> simp [h]

/-- C8: for a bin whose trigger counter `n` is positive, `finalize` multiplies the weight
of every entry of the bin's histogram by `1 / n`, that is, a finite weight `w` becomes
`w / n`; a histogram of `k` unit-weight fills has total weight `k / n` afterwards; and
with `n = 2` every weight is divided by 2. -/
theorem finalize_scales {α : Type} [LinearOrderedField α] (edges : List (Int × Int))
    (s : State α) (i n : Nat) (h : Hist α) (hi : i < edges.length)
    (hn : s.nTrigger[i]? = some n) (hpos : 0 < n) (hh : s.h1dPhi[i]? = some h) :
    (finalize edges s).h1dPhi[i]? =
      some (h.map (fun e => (e.1, e.2.mul (Weight.finite (1 / (n : α)))))) ∧
    (∀ w : α, (Weight.finite w).mul (Weight.finite (1 / (n : α))) = Weight.finite (w / n)) ∧
    ((∀ e ∈ h, e.2 = Weight.finite 1) →
      Hist.sumW (h.map (fun e => (e.1, e.2.mul (Weight.finite (1 / (n : α)))))) =
        Weight.finite ((h.length : α) / n)) ∧
    (n = 2 → ∀ w : α, (Weight.finite w).mul (Weight.finite (1 / (n : α))) =
      Weight.finite (w / 2)) := by
  have hne : n ≠ 0 := by omega
  refine ⟨?_, ?_, ?_, ?_⟩
  · rw [finalize_h1dPhi_get edges s i hi, hh, getD_of_get _ _ _ _ hn]
    simp [scaleFactor, hne, Hist.scaleW]
  · intro w
    simp [Weight.mul, div_eq_mul_inv]
  · intro hall
    unfold Hist.sumW
    rw [sumW_foldl_const (1 / (n : α))]
    · simp [div_eq_mul_inv]
    · intro e he
      rw [List.mem_map] at he
      obtain ⟨e0, he0, rfl⟩ := he
      simp [hall e0 he0, Weight.mul]
  · intro h2 w
    subst h2
    simp [Weight.mul, div_eq_mul_inv]

/-- Witness for `finalize_scales`: after the sample event the counter of bin 0 is 2 and
the histogram holds one unit-weight fill at `0.5`; `finalize` turns its weight into
`1 / 2`. -/
theorem finalize_scales_witness :
    0 < CENT_TYPE_EDGES.length ∧
    (analyze M_PI CENT_TYPE_EDGES (init CENT_TYPE_EDGES) sampleEvent).nTrigger[0]? = some 2 ∧
    (analyze M_PI CENT_TYPE_EDGES (init CENT_TYPE_EDGES) sampleEvent).h1dPhi[0]? =
      some [(1 / 2, Weight.finite 1)] ∧
    (finalize CENT_TYPE_EDGES
      (analyze M_PI CENT_TYPE_EDGES (init CENT_TYPE_EDGES) sampleEvent)).h1dPhi[0]? =
      some [(1 / 2, Weight.finite (1 / 2))] := by
  have h1 : (analyze M_PI CENT_TYPE_EDGES (init CENT_TYPE_EDGES) sampleEvent).nTrigger[0]?
      = some 2 := by rw [analyze_sampleEvent]; rfl
  have h2 : (analyze M_PI CENT_TYPE_EDGES (init CENT_TYPE_EDGES) sampleEvent).h1dPhi[0]?
      = some [(1 / 2, Weight.finite 1)] := by rw [analyze_sampleEvent]; rfl
  refine ⟨by decide, h1, h2, ?_⟩
  have h3 := (finalize_scales CENT_TYPE_EDGES
    (analyze M_PI CENT_TYPE_EDGES (init CENT_TYPE_EDGES) sampleEvent) 0 2
    [(1 / 2, Weight.finite 1)] (by decide) h1 (by decide) h2).1
  rw [h3]
  simp [Weight.mul]

/-- C10: the folding loop is the identity on non-negative inputs, and it is idempotent. -/
theorem fold_id_idem {α : Type} [LinearOrderedField α] [FloorRing α] (pi : α)
    (hpi : 0 < pi) :
    (∀ x : α, 0 ≤ x → fold pi x = x) ∧ (∀ x : α, fold pi (fold pi x) = fold pi x) :=
  ⟨fun _ hx => fold_of_nonneg pi hx,
   fun x => fold_of_nonneg pi (fold_spec hpi x).2⟩

/-- Witness for `fold_id_idem` at the `double` value of `M_PI`. -/
theorem fold_id_idem_witness :
    (0 : ℚ) < M_PI ∧ fold M_PI (1 / 2) = 1 / 2 ∧
      fold M_PI (fold M_PI (-5)) = fold M_PI (-5) :=
  ⟨by norm_num [M_PI],
   (fold_id_idem M_PI (by norm_num [M_PI])).1 (1 / 2) (by norm_num),
   (fold_id_idem M_PI (by norm_num [M_PI])).2 (-5)⟩

/-! ## Further lemmas -/

section MoreLemmas

variable {α : Type} [LinearOrderedField α]

theorem analyze_h1dPhi_get [FloorRing α] (pi : α) (edges : List (Int × Int)) (s : State α)
    (e : Event α) (b : Nat) :
    (analyze pi edges s e).h1dPhi[b]? =
      if assignedBin edges e.centrality = some b then
        (s.h1dPhi[b]?).map (fun h => h ++ pairFills pi (tracksTrigger e) (tracksAssoc e))
      else s.h1dPhi[b]? := by
  rw [analyze_eq]
  cases hbin : assignedBin edges e.centrality with
  | none => simp
  | some i =>
    by_cases hib : i = b
    · subst hib; simp [pairLoop_eq]
    · simp [hib, List.getElem?_modify]

theorem analyzeAll_h1dPhi [FloorRing α] (pi : α) (edges : List (Int × Int)) (b : Nat) :
    ∀ (es : List (Event α)) (s : State α),
      (analyzeAll pi edges s es).h1dPhi[b]? =
        (s.h1dPhi[b]?).map (fun h => h ++ binFills pi edges es b) := by
  intro es
  induction es with
  | nil =>
    intro s
    cases h : s.h1dPhi[b]? <;> simp [analyzeAll, binFills, h]
  | cons e rest ih =>
    intro s
    have hstep := analyze_h1dPhi_get pi edges s e b
    unfold analyzeAll at ih ⊢
    rw [List.foldl_cons, ih, hstep]
    by_cases hbin : assignedBin edges e.centrality = some b
    · rw [if_pos hbin]
      cases s.h1dPhi[b]? <;>
        simp [binFills, List.filter_cons, hbin, List.append_assoc]
    · rw [if_neg hbin]
      have hne : (assignedBin edges e.centrality == some b) = false := by
        simpa using hbin
      cases s.h1dPhi[b]? <;> simp [binFills, List.filter_cons, hne]

theorem pairFills_nonneg [FloorRing α] {pi : α} (hpi : 0 < pi) (trig assoc : List (Particle α)) :
    ∀ v ∈ pairFills pi trig assoc, 0 ≤ v.1 := by
  intro v hv
  unfold pairFills at hv
  rw [List.mem_map] at hv
  obtain ⟨p, -, rfl⟩ := hv
  exact (fold_spec hpi _).2

theorem binFills_nonneg [FloorRing α] {pi : α} (hpi : 0 < pi) (edges : List (Int × Int))
    (es : List (Event α)) (b : Nat) :
    ∀ v ∈ binFills pi edges es b, 0 ≤ v.1 := by
  intro v hv
  unfold binFills at hv
  rw [List.mem_flatMap] at hv
  obtain ⟨e, -, hve⟩ := hv
  exact pairFills_nonneg hpi _ _ v hve

end MoreLemmas

theorem init_h1dPhi_get {α : Type} (edges : List (Int × Int)) (b : Nat) (hb : b < edges.length) :
    (init edges : State α).h1dPhi[b]? = some [] := by
  simp [init, bookedHistograms, List.getElem?_replicate, hb]

theorem init_nTrigger_get {α : Type} (edges : List (Int × Int)) (b : Nat) (hb : b < edges.length) :
    (init edges : State α).nTrigger[b]? = some 0 := by
  simp [init, List.getElem?_replicate, hb]

/-! ## Further claims -/

/-- C11: for every azimuthal difference `x` the folding loop terminates, within `foldFuel`
additions of the step `M_PI/2`, and its result is non-negative; every value deposited
into a histogram by the event loop is non-negative. -/
theorem fold_terminates_nonneg {α : Type} [LinearOrderedField α] [FloorRing α] (pi : α)
    (hpi : 0 < pi) (x : α) :
    (∃ n : Nat, ∀ m : Nat, n ≤ m → foldLoop (pi / 2) m x = some (fold pi x)) ∧
    0 ≤ fold pi x ∧
    (∀ (t a : Particle α) (h : Hist α), ∀ v ∈ pairStep pi t h a, v ∈ h ∨ 0 ≤ v.1) ∧
    (∀ (edges : List (Int × Int)) (es : List (Event α)) (b : Nat) (h : Hist α),
      (analyzeAll pi edges (init edges) es).h1dPhi[b]? = some h → ∀ v ∈ h, 0 ≤ v.1) := by
  refine ⟨⟨foldFuel (pi / 2) x, ?_⟩, (fold_spec hpi x).2, ?_, ?_⟩
  · intro m hm
    obtain ⟨k, rfl⟩ := Nat.exists_eq_add_of_le hm
    exact foldLoop_mono _ _ k _ _ (fold_spec hpi x).1
  · intro t a h v hv
    unfold pairStep at hv
    split at hv
    · simp only [Hist.fill, List.mem_append, List.mem_singleton] at hv
      rcases hv with hv | hv
      · left; exact hv
      · right; rw [hv]; exact (fold_spec hpi _).2
    · left; exact hv
  · intro edges es b h hh v hv
    rw [analyzeAll_h1dPhi] at hh
    by_cases hb : b < edges.length
    · rw [init_h1dPhi_get edges b hb] at hh
      simp only [Option.map_some', List.nil_append, Option.some.injEq] at hh
      subst hh
      exact binFills_nonneg hpi edges es b v hv
    · have : (init edges : State α).h1dPhi[b]? = none := by
        simp [init, bookedHistograms, List.getElem?_replicate, hb]
      rw [this] at hh
      cases hh

/-- Witness for `fold_terminates_nonneg` at the `double` value of `M_PI` and `x = -5`. -/
theorem fold_terminates_nonneg_witness :
    (0 : ℚ) < M_PI ∧ 0 ≤ fold M_PI (-5) :=
  ⟨by norm_num [M_PI], (fold_terminates_nonneg M_PI (by norm_num [M_PI]) (-5)).2.1⟩

section CutLemmas

variable {α : Type} [LinearOrderedField α]

theorem cutTriggerId_iff (p : Particle α) :
    cutTriggerId p = true ↔
      (p.pid = 111 ∧ 0.12 < p.pt ∧ p.pt < 0.16) ∨ (p.pid = 22 ∧ 5.0 < p.pt ∧ p.pt < 9.0) := by
  simp [cutTriggerId, pidPI0, pidGAMMA, GeV, and_assoc]

theorem cutTrigger_iff (p : Particle α) :
    cutTrigger p = true ↔
      |p.eta| < 3.9 ∨ (|p.eta| > 3.1 ∧
        ((p.pid = 111 ∧ 0.12 < p.pt ∧ p.pt < 0.16) ∨
          (p.pid = 22 ∧ 5.0 < p.pt ∧ p.pt < 9.0))) := by
  unfold cutTrigger
  rw [Bool.or_eq_true, Bool.and_eq_true, cutTriggerId_iff]
  simp only [decide_eq_true_eq]

theorem mem_tracksTrigger (e : Event α) (p : Particle α) :
    p ∈ tracksTrigger e ↔ p ∈ e.particles ∧ cutTrigger p = true := by
  unfold tracksTrigger particlesByPt
  rw [(List.perm_insertionSort _ _).mem_iff, List.mem_filter]

theorem mem_tracksAssoc (e : Event α) (p : Particle α) :
    p ∈ tracksAssoc e ↔ p ∈ e.particles ∧ p.charge ≠ 0 ∧ cutAssoc p = true := by
  unfold tracksAssoc particlesByPt
  rw [(List.perm_insertionSort _ _).mem_iff, List.mem_filter]
  simp only [Bool.and_eq_true, bne_iff_ne]

theorem length_tracksTrigger (e : Event α) :
    (tracksTrigger e).length = (e.particles.filter cutTrigger).length := by
  unfold tracksTrigger particlesByPt
  rw [List.length_insertionSort]

end CutLemmas

/-- C12 (counterexample): a neutral pion (PID 111) with `pt` exactly `0.12 GeV`, inside the
closed range `[0.12, 0.16]`, at `|eta| = 4 >= 3.9` is rejected by `cutTrigger`. -/
theorem cutTrigger_rejects_boundary_pion :
    boundaryPion.pid = 111 ∧ ((0.12 : ℚ) ≤ boundaryPion.pt ∧ boundaryPion.pt ≤ 0.16) ∧
      (3.9 : ℚ) ≤ |boundaryPion.eta| ∧ cutTrigger boundaryPion = false ∧
      tracksTrigger { centrality := 20, particles := [boundaryPion] } = [] := by
  have hc : cutTrigger boundaryPion = false := by
    rw [← Bool.not_eq_true, cutTrigger_iff]
    norm_num [boundaryPion, abs_lt]
  refine ⟨rfl, by norm_num [boundaryPion], by norm_num [boundaryPion], hc, ?_⟩
  simp [tracksTrigger, particlesByPt, hc]

/-- C12 (amended): every neutral pion (PID 111) with `0.12 < pt < 0.16` and every photon
(PID 22) with `5.0 < pt < 9.0` (strict bounds) is accepted by `cutTrigger` whatever its
pseudorapidity: the pseudorapidity condition `|eta| < 3.9 or |eta| > 3.1` holds for every
`eta`. -/
theorem cutTrigger_any_eta {α : Type} [LinearOrderedField α] (p : Particle α)
    (hid : (p.pid = 111 ∧ 0.12 < p.pt ∧ p.pt < 0.16) ∨
      (p.pid = 22 ∧ 5.0 < p.pt ∧ p.pt < 9.0)) :
    cutTrigger p = true ∧ (|p.eta| < 3.9 ∨ |p.eta| > 3.1) ∧
      ∀ eta : α, cutTrigger { p with eta := eta } = true := by
  have heta : ∀ x : α, |x| < 3.9 ∨ |x| > 3.1 := by
    intro x
    rcases lt_or_le |x| 3.9 with h | h
    · left; exact h
    · right; exact lt_of_lt_of_le (by norm_num) h
  have hall : ∀ q : Particle α, ((q.pid = 111 ∧ 0.12 < q.pt ∧ q.pt < 0.16) ∨
      (q.pid = 22 ∧ 5.0 < q.pt ∧ q.pt < 9.0)) → cutTrigger q = true := by
    intro q hq
    rw [cutTrigger_iff]
    rcases heta q.eta with h | h
    · left; exact h
    · right; exact ⟨h, hq⟩
  exact ⟨hall p hid, heta p.eta, fun eta => hall _ hid⟩

/-- Witness for `cutTrigger_any_eta`: a photon of `pt = 6 GeV` at `|eta| = 5`. -/
theorem cutTrigger_any_eta_witness :
    ((forwardPhoton.pid = 111 ∧ (0.12 : ℚ) < forwardPhoton.pt ∧ forwardPhoton.pt < 0.16) ∨
      (forwardPhoton.pid = 22 ∧ (5.0 : ℚ) < forwardPhoton.pt ∧ forwardPhoton.pt < 9.0)) ∧
    cutTrigger forwardPhoton = true :=
  ⟨Or.inr (by norm_num [forwardPhoton]),
   (cutTrigger_any_eta forwardPhoton (Or.inr (by norm_num [forwardPhoton]))).1⟩

/-- C15: with the C++ precedence, `cutTrigger` accepts a particle exactly when
`|eta| < 3.9`, or `|eta| > 3.1` and the particle is a PID-111 particle with
`0.12 < pt < 0.16` or a PID-22 particle with `5.0 < pt < 9.0`; every particle of an event
with `|eta| < 3.9` is in the trigger sequence whatever its identity and momentum, and the
counter of the bin of the event grows by the number of accepted particles. -/
theorem cutTrigger_precedence {α : Type} [LinearOrderedField α] [FloorRing α]
    (p : Particle α) :
    (cutTrigger p = true ↔
      |p.eta| < 3.9 ∨ (|p.eta| > 3.1 ∧
        ((p.pid = 111 ∧ 0.12 < p.pt ∧ p.pt < 0.16) ∨
          (p.pid = 22 ∧ 5.0 < p.pt ∧ p.pt < 9.0)))) ∧
    (|p.eta| < 3.9 → cutTrigger p = true) ∧
    (∀ e : Event α, p ∈ e.particles → |p.eta| < 3.9 → p ∈ tracksTrigger e) ∧
    (∀ e : Event α, (tracksTrigger e).length = (e.particles.filter cutTrigger).length ∧
      (e.particles.filter (fun q => decide (|q.eta| < 3.9))).length ≤
        (tracksTrigger e).length) ∧
    (∀ (pi : α) (edges : List (Int × Int)) (s : State α) (e : Event α) (b n : Nat),
      assignedBin edges e.centrality = some b → s.nTrigger[b]? = some n →
      (analyze pi edges s e).nTrigger[b]? =
        some ((n + (e.particles.filter cutTrigger).length) % 2 ^ 64)) := by
  have h1 := cutTrigger_iff p
  refine ⟨h1, fun h => h1.mpr (Or.inl h), ?_, ?_, ?_⟩
  · intro e hp heta
    exact (mem_tracksTrigger e p).mpr ⟨hp, h1.mpr (Or.inl heta)⟩
  · intro e
    refine ⟨length_tracksTrigger e, ?_⟩
    rw [length_tracksTrigger]
    have hsub : List.Sublist (e.particles.filter (fun q => decide (|q.eta| < 3.9)))
        (e.particles.filter cutTrigger) := by
      apply List.monotone_filter_right
      intro q hq
      have hq2 : |q.eta| < 3.9 := by simpa using hq
      exact (cutTrigger_iff q).mpr (Or.inl hq2)
    exact hsub.length_le
  · intro pi edges s e b n hb hn
    rw [analyze_nTrigger_get, if_pos hb, hn, length_tracksTrigger]
    rfl

/-- C17: the pair of a particle with itself adds no fill, because the condition
`a.pt < t.pt` is strict: the loop body leaves the histogram as it is on `(p, p)`, every
pair that contributes a fill consists of two different particles, and in the sample
event, where the pion is both a trigger and an associate, the only fill comes from the
pair of the photon and the pion. -/
theorem no_self_pair {α : Type} [LinearOrderedField α] [FloorRing α] (pi : α)
    (p : Particle α) (h : Hist α) :
    pairStep pi p h p = h ∧
    (∀ trig assoc : List (Particle α),
      ∀ q ∈ (trig ×ˢ assoc).filter (fun q => decide (q.2.pt < q.1.pt)), q.1 ≠ q.2) ∧
    (∀ trig assoc : List (Particle α),
      pairFills pi trig assoc =
        ((trig ×ˢ assoc).filter
          (fun q => decide (q.1 ≠ q.2) && decide (q.2.pt < q.1.pt))).map
          (fun q => (fold pi (q.2.phi - q.1.phi), Weight.finite 1))) ∧
    (samplePion ∈ tracksTrigger sampleEvent ∧ samplePion ∈ tracksAssoc sampleEvent ∧
      (analyze M_PI CENT_TYPE_EDGES (init CENT_TYPE_EDGES) sampleEvent).h1dPhi =
        [[(1 / 2, Weight.finite 1)]]) := by
  have hne : ∀ q : Particle α × Particle α, q.2.pt < q.1.pt → q.1 ≠ q.2 := by
    intro q hq heq
    rw [heq] at hq
    exact lt_irrefl _ hq
  refine ⟨?_, ?_, ?_, ?_⟩
  · simp [pairStep]
  · intro trig assoc q hq
    rw [List.mem_filter] at hq
    exact hne q (by simpa using hq.2)
  · intro trig assoc
    unfold pairFills
    congr 1
    apply List.filter_congr
    intro q _
    by_cases hq : q.2.pt < q.1.pt
    · simp [hq, hne q hq]
    · simp [hq]
  · refine ⟨?_, ?_, ?_⟩
    · rw [tracksTrigger_sample]; simp
    · rw [tracksAssoc_sample]; simp
    · rw [analyze_sampleEvent]

section StreamLemmas

variable {α : Type} [LinearOrderedField α]

theorem triggerSum_append (edges : List (Int × Int)) (es1 es2 : List (Event α)) (b : Nat) :
    triggerSum edges (es1 ++ es2) b = triggerSum edges es1 b + triggerSum edges es2 b := by
  simp [triggerSum]

theorem triggerSum_perm (edges : List (Int × Int)) {es1 es2 : List (Event α)}
    (hp : List.Perm es1 es2) (b : Nat) :
    triggerSum edges es1 b = triggerSum edges es2 b := by
  unfold triggerSum
  exact ((hp.filter _).map _).sum_eq

theorem triggerSum_replicate (edges : List (Int × Int)) (e : Event α) (b : Nat) :
    ∀ k : Nat, triggerSum edges (List.replicate k e) b =
      k * (if assignedBin edges e.centrality = some b then (tracksTrigger e).length else 0) := by
  intro k
  induction k with
  | zero => simp [triggerSum]
  | succ k ih =>
    have hcons : triggerSum edges (e :: List.replicate k e) b =
        (if assignedBin edges e.centrality = some b then (tracksTrigger e).length else 0) +
          triggerSum edges (List.replicate k e) b := by
      by_cases hb : assignedBin edges e.centrality = some b
      · simp [triggerSum, List.filter_cons, hb]
      · have hne : (assignedBin edges e.centrality == some b) = false := by simpa using hb
        simp only [triggerSum, List.filter_cons, hne, if_neg hb, Bool.false_eq_true, if_false,
          Nat.zero_add]
    rw [List.replicate_succ, hcons, ih, Nat.succ_mul, Nat.add_comm]

theorem binFills_append [FloorRing α] (pi : α) (edges : List (Int × Int))
    (es1 es2 : List (Event α)) (b : Nat) :
    binFills pi edges (es1 ++ es2) b = binFills pi edges es1 b ++ binFills pi edges es2 b := by
  simp [binFills]

theorem binFills_perm [FloorRing α] (pi : α) (edges : List (Int × Int))
    {es1 es2 : List (Event α)} (hp : List.Perm es1 es2) (b : Nat) :
    List.Perm (binFills pi edges es1 b) (binFills pi edges es2 b) := by
  unfold binFills
  exact (hp.filter _).flatMap_right _

theorem analyzeAll_init_nTrigger [FloorRing α] (pi : α) (edges : List (Int × Int))
    (es : List (Event α)) (b : Nat) (hb : b < edges.length) :
    (analyzeAll pi edges (init edges) es).nTrigger[b]? =
      some (triggerSum edges es b % 2 ^ 64) := by
  rw [analyzeAll_nTrigger pi edges b es _ 0 (init_nTrigger_get edges b hb) (by norm_num),
    Nat.zero_add]

/-- The iterate reached by the loop is the first non-negative one. -/
theorem foldLoop_least (step : α) :
    ∀ (fuel : Nat) (x y : α), foldLoop step fuel x = some y →
      ∃ k : Nat, k ≤ fuel ∧ y = x + k * step ∧ 0 ≤ y ∧
        ∀ j : Nat, j < k → x + j * step < 0 := by
  intro fuel
  induction fuel with
  | zero =>
    intro x y h
    by_cases hx : x < 0
    · simp [foldLoop, hx] at h
    · simp [foldLoop, hx] at h
      subst h
      exact ⟨0, le_refl _, by simp, not_lt.mp hx, fun j hj => absurd hj (Nat.not_lt_zero j)⟩
  | succ n ih =>
    intro x y h
    by_cases hx : x < 0
    · rw [foldLoop_neg_succ step n hx] at h
      obtain ⟨k, hk, hy, hy0, hlt⟩ := ih _ _ h
      refine ⟨k + 1, by omega, ?_, hy0, ?_⟩
      · rw [hy]; push_cast; ring
      · intro j hj
        cases j with
        | zero => simpa using hx
        | succ j =>
          have := hlt j (by omega)
          have e : x + ((j + 1 : Nat) : α) * step = x + step + (j : α) * step := by
            push_cast; ring
          rw [e]; exact this
    · rw [foldLoop_of_nonneg step _ (not_lt.mp hx)] at h
      have hxy : x = y := Option.some.inj h
      subst hxy
      exact ⟨0, Nat.zero_le _, by simp, not_lt.mp hx,
        fun j hj => absurd hj (Nat.not_lt_zero j)⟩

end StreamLemmas

theorem tracksTrigger_photonEvent : tracksTrigger photonEvent = [samplePhoton] := by
  have h1 : cutTrigger samplePhoton = true := by norm_num [cutTrigger, samplePhoton, abs_lt]
  simp [tracksTrigger, particlesByPt, photonEvent, h1]

theorem triggerSum_photonEvents (k : Nat) :
    triggerSum CENT_TYPE_EDGES (List.replicate k photonEvent) 0 = k := by
  have hc : photonEvent.centrality = 20 := rfl
  rw [triggerSum_replicate, hc, if_pos assignedBin_sample, tracksTrigger_photonEvent]
  simp

/-- C14 (counterexample): with `2 ^ 63` copies of an event holding one trigger, each half
of the stream alone gives the counter `2 ^ 63`, and the two halves in sequence give the
counter 0, not `2 ^ 63 + 2 ^ 63`. -/
theorem counter_sum_wraps :
    (analyzeAll M_PI CENT_TYPE_EDGES (init CENT_TYPE_EDGES)
      (List.replicate (2 ^ 63) photonEvent)).nTrigger[0]? = some (2 ^ 63) ∧
    (analyzeAll M_PI CENT_TYPE_EDGES (init CENT_TYPE_EDGES)
      (List.replicate (2 ^ 63) photonEvent ++
        List.replicate (2 ^ 63) photonEvent)).nTrigger[0]? = some 0 ∧
    (0 : Nat) ≠ 2 ^ 63 + 2 ^ 63 := by
  refine ⟨?_, ?_, by norm_num⟩
  · rw [analyzeAll_init_nTrigger M_PI CENT_TYPE_EDGES _ 0 (by decide),
      triggerSum_photonEvents]
    norm_num
  · rw [analyzeAll_init_nTrigger M_PI CENT_TYPE_EDGES _ 0 (by decide), triggerSum_append,
      triggerSum_photonEvents]
    norm_num

/-- C14 (amended): take a state whose counters are those left by `init` and in which the
histogram of bin `b` is present and empty. For two event sequences `es1` and `es2` run
from that state, the counter of `b` after `es1 ++ es2` is the sum modulo `2 ^ 64` of the
counters obtained from `es1` alone and from `es2` alone (the plain sum when it is below
`2 ^ 64`), the histogram of `b` is the histogram from `es1` followed by the one from
`es2`, and for every reordering of the events the counter is the same and the histogram
holds the same multiset of fills. -/
theorem analyzeAll_append {α : Type} [LinearOrderedField α] [FloorRing α] (pi : α)
    (edges : List (Int × Int)) (s : State α) (es1 es2 : List (Event α)) (b : Nat)
    (hb : b < edges.length) (hs : s.nTrigger = (init edges : State α).nTrigger)
    (hh : s.h1dPhi[b]? = some []) :
    ∃ (c1 c2 : Nat) (h1 h2 : Hist α),
      (analyzeAll pi edges s es1).nTrigger[b]? = some c1 ∧
      (analyzeAll pi edges s es2).nTrigger[b]? = some c2 ∧
      (analyzeAll pi edges s es1).h1dPhi[b]? = some h1 ∧
      (analyzeAll pi edges s es2).h1dPhi[b]? = some h2 ∧
      (analyzeAll pi edges s (es1 ++ es2)).nTrigger[b]? = some ((c1 + c2) % 2 ^ 64) ∧
      (c1 + c2 < 2 ^ 64 →
        (analyzeAll pi edges s (es1 ++ es2)).nTrigger[b]? = some (c1 + c2)) ∧
      (analyzeAll pi edges s (es1 ++ es2)).h1dPhi[b]? = some (h1 ++ h2) ∧
      (∀ es : List (Event α), List.Perm es (es1 ++ es2) →
        (analyzeAll pi edges s es).nTrigger[b]? =
          (analyzeAll pi edges s (es1 ++ es2)).nTrigger[b]? ∧
        ∃ h : Hist α, (analyzeAll pi edges s es).h1dPhi[b]? = some h ∧
          (h : Multiset (α × Weight α)) =
            (h1 : Multiset (α × Weight α)) + (h2 : Multiset (α × Weight α))) := by
  have hn0 : s.nTrigger[b]? = some 0 := by rw [hs]; exact init_nTrigger_get edges b hb
  have hcount : ∀ es : List (Event α),
      (analyzeAll pi edges s es).nTrigger[b]? = some (triggerSum edges es b % 2 ^ 64) := by
    intro es
    rw [analyzeAll_nTrigger pi edges b es s 0 hn0 (by norm_num), Nat.zero_add]
  have hhist : ∀ es : List (Event α),
      (analyzeAll pi edges s es).h1dPhi[b]? = some (binFills pi edges es b) := by
    intro es
    rw [analyzeAll_h1dPhi, hh]
    simp
  have hsum : (analyzeAll pi edges s (es1 ++ es2)).nTrigger[b]? =
      some ((triggerSum edges es1 b % 2 ^ 64 + triggerSum edges es2 b % 2 ^ 64) % 2 ^ 64) := by
    rw [hcount, triggerSum_append, Nat.add_mod]
  refine ⟨triggerSum edges es1 b % 2 ^ 64, triggerSum edges es2 b % 2 ^ 64,
    binFills pi edges es1 b, binFills pi edges es2 b,
    hcount es1, hcount es2, hhist es1, hhist es2, hsum, ?_, ?_, ?_⟩
  · intro hlt
    rw [hsum, Nat.mod_eq_of_lt hlt]
  · rw [hhist, binFills_append]
  · intro es hp
    constructor
    · rw [hcount es, hcount (es1 ++ es2), triggerSum_perm edges hp b]
    · refine ⟨binFills pi edges es b, hhist es, ?_⟩
      rw [Multiset.coe_add, ← binFills_append]
      exact Multiset.coe_eq_coe.mpr (binFills_perm pi edges hp b)

/-- Witness for `analyzeAll_append`: from `bookedState`, the sample event followed by the
event holding the photon only, on bin 0 of the configured table. -/
theorem analyzeAll_append_witness :
    0 < CENT_TYPE_EDGES.length ∧
    bookedState.nTrigger = (init CENT_TYPE_EDGES : State ℚ).nTrigger ∧
    bookedState.h1dPhi[0]? = some [] ∧
    ∃ (c1 c2 : Nat) (h1 h2 : Hist ℚ),
      (analyzeAll M_PI CENT_TYPE_EDGES bookedState [sampleEvent]).nTrigger[0]? = some c1 ∧
      (analyzeAll M_PI CENT_TYPE_EDGES bookedState [photonEvent]).nTrigger[0]? = some c2 ∧
      (analyzeAll M_PI CENT_TYPE_EDGES bookedState [sampleEvent]).h1dPhi[0]? = some h1 ∧
      (analyzeAll M_PI CENT_TYPE_EDGES bookedState [photonEvent]).h1dPhi[0]? = some h2 ∧
      (analyzeAll M_PI CENT_TYPE_EDGES bookedState
        ([sampleEvent] ++ [photonEvent])).nTrigger[0]? = some ((c1 + c2) % 2 ^ 64) ∧
      (analyzeAll M_PI CENT_TYPE_EDGES bookedState
        ([sampleEvent] ++ [photonEvent])).h1dPhi[0]? = some (h1 ++ h2) :=
  ⟨by decide, rfl, rfl,
   match analyzeAll_append M_PI CENT_TYPE_EDGES bookedState [sampleEvent] [photonEvent] 0
     (by decide) rfl rfl with
   | ⟨c1, c2, h1, h2, hc1, hc2, hh1, hh2, hs, _, hh, _⟩ =>
     ⟨c1, c2, h1, h2, hc1, hc2, hh1, hh2, hs, hh⟩⟩

/-- C16: for a negative azimuthal difference `x` the folding loop returns
`x + k * (M_PI/2)` where `k` is the least natural number that makes the sum non-negative,
so the result lies in `[0, M_PI/2)`; for `x = -M_PI/4` the result is `M_PI/4`, which
differs from `x` by no integer multiple of `2 * M_PI`. -/
theorem fold_least_multiple {α : Type} [LinearOrderedField α] [FloorRing α] (pi : α)
    (hpi : 0 < pi) (x : α) (hx : x < 0) :
    (∃ k : Nat, fold pi x = x + k * (pi / 2) ∧ 0 ≤ x + k * (pi / 2) ∧
      ∀ j : Nat, j < k → x + j * (pi / 2) < 0) ∧
    (0 ≤ fold pi x ∧ fold pi x < pi / 2) ∧
    (fold pi (-(pi / 4)) = pi / 4 ∧
      ∀ m : Int, fold pi (-(pi / 4)) - (-(pi / 4)) ≠ m * (2 * pi)) := by
  obtain ⟨k, -, hk, hk0, hlt⟩ := foldLoop_least _ _ _ _ (fold_spec hpi x).1
  have hquarter : fold pi (-(pi / 4)) = pi / 4 := by
    have hneg : -(pi / 4) < 0 := by linarith
    rw [fold_unroll hpi, if_pos hneg]
    have e : -(pi / 4) + pi / 2 = pi / 4 := by ring
    rw [e]
    exact fold_of_nonneg pi (by linarith)
  refine ⟨⟨k, hk, hk ▸ hk0, hlt⟩, ⟨hk0, ?_⟩, hquarter, ?_⟩
  · cases k with
    | zero =>
      simp at hk
      rw [hk] at hk0
      exact absurd hx (not_lt.mpr hk0)
    | succ j =>
      have := hlt j (Nat.lt_succ_self j)
      rw [hk]
      push_cast
      linarith
  · intro m hm
    rw [hquarter] at hm
    have h4 : ((4 * m : Int) : α) = ((1 : Int) : α) := by
      push_cast
      have hprod : (4 * (m : α) - 1) * (2 * pi) = 0 := by linear_combination (-4) * hm
      rcases mul_eq_zero.mp hprod with h0 | h0
      · linarith
      · linarith
    have h5 : 4 * m = 1 := by exact_mod_cast h4
    omega

/-- Witness for `fold_least_multiple` at the `double` value of `M_PI` and `x = -5`. -/
theorem fold_least_multiple_witness :
    (0 : ℚ) < M_PI ∧ (-5 : ℚ) < 0 ∧
      (0 ≤ fold M_PI (-5) ∧ fold M_PI (-5) < M_PI / 2) :=
  ⟨by norm_num [M_PI], by norm_num,
   (fold_least_multiple M_PI (by norm_num [M_PI]) (-5) (by norm_num)).2.1⟩

/-! ## The sample states -/

theorem pairFills_photonEvent :
    pairFills M_PI (tracksTrigger photonEvent) (tracksAssoc photonEvent) = [] := by
  have h1 : (samplePhoton.charge != 0) = false := by simp [samplePhoton]
  have h2 : tracksAssoc photonEvent = [] := by
    simp [tracksAssoc, particlesByPt, photonEvent, h1]
  rw [h2]
  simp [pairFills]

theorem pairFills_sampleEvent :
    pairFills M_PI (tracksTrigger sampleEvent) (tracksAssoc sampleEvent) =
      [(1 / 2, Weight.finite 1)] := by
  have hf : fold M_PI (samplePion.phi - samplePhoton.phi) = 1 / 2 := by
    have : samplePion.phi - samplePhoton.phi = 1 / 2 := by norm_num [samplePion, samplePhoton]
    rw [this]; exact fold_of_nonneg _ (by norm_num)
  have h1 : samplePion.pt < samplePhoton.pt := by norm_num [samplePion, samplePhoton]
  rw [tracksTrigger_sample, tracksAssoc_sample]
  simp [pairFills, List.product, h1, hf]

theorem binFills_photonEvents (k : Nat) :
    binFills M_PI CENT_TYPE_EDGES (List.replicate k photonEvent) 0 = [] := by
  rw [List.eq_nil_iff_forall_not_mem]
  intro v hv
  unfold binFills at hv
  rw [List.mem_flatMap] at hv
  obtain ⟨e, he, hve⟩ := hv
  have he2 : e = photonEvent := List.eq_of_mem_replicate (List.mem_filter.mp he).1
  rw [he2, pairFills_photonEvent] at hve
  cases hve

/-- With the histogram of bin 0 present, the sample event takes `bookedState` to
`filledState`. -/
theorem analyze_bookedState_sample :
    analyze M_PI CENT_TYPE_EDGES bookedState sampleEvent = filledState :=
  analyze_sampleEvent

/-- With the histogram of bin 0 present, the sample event followed by `k` events holding
the photon only gives the counter `(2 + k) % 2 ^ 64` and the one fill of the sample
event. -/
theorem analyzeAll_sample_photons (k : Nat) :
    (analyzeAll M_PI CENT_TYPE_EDGES bookedState
      ([sampleEvent] ++ List.replicate k photonEvent)).nTrigger[0]? =
      some ((2 + k) % 2 ^ 64) ∧
    (analyzeAll M_PI CENT_TYPE_EDGES bookedState
      ([sampleEvent] ++ List.replicate k photonEvent)).h1dPhi[0]? =
      some [(1 / 2, Weight.finite 1)] := by
  have hc : sampleEvent.centrality = 20 := rfl
  have ht : triggerSum CENT_TYPE_EDGES [sampleEvent] 0 = 2 := by
    simp [triggerSum, hc, assignedBin_sample, tracksTrigger_sample]
  have hb : binFills M_PI CENT_TYPE_EDGES [sampleEvent] 0 = [(1 / 2, Weight.finite 1)] := by
    simp [binFills, hc, assignedBin_sample, pairFills_sampleEvent]
  constructor
  · rw [analyzeAll_nTrigger M_PI CENT_TYPE_EDGES 0 _ bookedState 0 rfl (by norm_num),
      Nat.zero_add, triggerSum_append, ht, triggerSum_photonEvents]
  · rw [analyzeAll_h1dPhi, binFills_append, hb, binFills_photonEvents]
    rfl

/-- With the histogram of bin 0 present, `wrappedState` is reached by the event loop: after
the sample event and `2 ^ 64 - 2` events holding the photon only, the counter of bin 0 is
back at 0 and the histogram of bin 0 holds the fill of the sample event. -/
theorem wrappedState_reached :
    (analyzeAll M_PI CENT_TYPE_EDGES bookedState
      ([sampleEvent] ++ List.replicate (2 ^ 64 - 2) photonEvent)).nTrigger[0]? =
      wrappedState.nTrigger[0]? ∧
    (analyzeAll M_PI CENT_TYPE_EDGES bookedState
      ([sampleEvent] ++ List.replicate (2 ^ 64 - 2) photonEvent)).h1dPhi[0]? =
      wrappedState.h1dPhi[0]? := by
  obtain ⟨h1, h2⟩ := analyzeAll_sample_photons (2 ^ 64 - 2)
  refine ⟨?_, ?_⟩
  · rw [h1]
    show some ((2 + (2 ^ 64 - 2)) % 2 ^ 64) = some 0
    norm_num
  · rw [h2]
    rfl

end PHENIX_2013_I1207323
